import Mathlib

/-!
Verification of the nested-container core of `candle` (`src/candle/nested.py`).

The development shallowly embeds the Python module:

* `NElem`/plain nested lists model Python values fed to `Package`: an element
  is either a raw leaf value of type `α` or a nested Python `list`.
* `Pkg` models a constructed child slot of a `Package`: either a raw leaf or a
  nested `Package` (constructor `node`, carrying its `children`).
* `buildElem`/`buildList`/`build`/`buildWithType` model `Package.__init__` and
  `Package._build_children`, including the constructor assertion
  `assert len(children) != 0 or children_type` (failure is `none`, standing for
  the ConstructionError of the specification).  `children_type` only decides
  whether the assertion passes for empty input and whether a forwarded name is
  invocable; it does not influence the structure, so it is modelled as the
  choice between `build` (no explicit type) and `buildWithType`.
* `reifyPkg`/`reifyList` model `Package.reify` (without the `flat` option).
* `zipStep`/`goZip`/`bStep`/`goBroadcast`/`getAttrCall` model the invocable
  branch of `Package.__getattribute__`: the closure `get_attr` scans the
  positional arguments for the first `Package`, replaces the argument tuple by
  the children of that `Package` (`use_pkg_iter`) and then walks the elements,
  recursing into sub-`Package`s.  The leaf invocation
  `getattr(element, attr_name)(*new_args, **kwargs)` is a parameter
  `lc : α → List (Pkg β) → κ → Option γ` receiving the resolved positional
  arguments and the unmodified keyword arguments `kw : κ`.  Failure of a leaf
  invocation, an out-of-range index `args[i]`, and the assertion of the result
  constructor `Package(new_elems)` on an empty element list are all `none`.
* `applyElem`/`applyList`/`apply_fn` model `Package._apply_fn`/`Package.apply_fn`
  specialised to one argument tree, the arity used by the claims; `zip`
  truncation of the Python loop is kept.  Accessing `arg.children` on a raw
  leaf (an AttributeError in Python) is `none`.
* `flattenElem`/`flatten`, `nmElem`/`nested_map` model the free functions
  `flatten` and `nested_map`.
* `nestedBuilderRun` models one full consumption of the generator
  `nested_builder(target, *args)` exactly as written, i.e. iterating
  `zip(args)`, which yields the one-tuples `(args[0],), (args[1],), ...`.
* `PyVal` and `flattenPy`/`nestedMapPy`/`buildChildrenPy` re-embed the same
  functions at the granularity of Python runtime types, so that the
  `isinstance(-, list)` tests are visible: `pylist` is the only constructor
  the tests accept, `pytuple`/`pystr`/`pyatom` are all other values.

The leaf operation for ints, `addLC`/`addF`, models `int.__add__` applied to a
single int argument; the claims never invoke an int leaf operation on a
non-int operand, so those branches are mapped to failure.
-/

namespace Candle

/-- A plain nested Python value: a raw leaf of type `α` or a nested `list`. -/
inductive NElem (α : Type) where
  | leaf : α → NElem α
  | nest : List (NElem α) → NElem α

/-- A constructed child slot of a `Package`: a raw leaf kept as-is by
`_build_children`, or a nested `Package` with its children. -/
inductive Pkg (α : Type) where
  | leaf : α → Pkg α
  | node : List (Pkg α) → Pkg α

mutual
/-- `Package(child)` for one input element inside `_build_children`:
a `list` is wrapped into a fresh `Package` (whose constructor re-runs the
assertion `assert len(children) != 0 or children_type` with no explicit type),
any other value is kept as a leaf. -/
def buildElem {α : Type} : NElem α → Option (Pkg α)
  | .leaf a => some (.leaf a)
  | .nest xs => if xs.isEmpty then none else (buildList xs).map .node

/-- `Package._build_children`: left-to-right construction of the child list. -/
def buildList {α : Type} : List (NElem α) → Option (List (Pkg α))
  | [] => some []
  | e :: rest => do pure ((← buildElem e) :: (← buildList rest))
end

/-- `Package(x)` with no explicit `children_type`: the constructor assertion
requires a non-empty input, then `_build_children` runs. -/
def build {α : Type} (x : List (NElem α)) : Option (List (Pkg α)) :=
  if x.isEmpty then none else buildList x

/-- `Package(x, children_type=T)`: the assertion passes even for empty input
because an explicit type is supplied; nested children are still built by
`Package(child)` without a type. -/
def buildWithType {α : Type} (x : List (NElem α)) : Option (List (Pkg α)) :=
  buildList x

mutual
/-- `item.reify()` for one child slot: a nested `Package` reifies to its own
nested list, a leaf passes through unchanged. -/
def reifyPkg {α : Type} : Pkg α → NElem α
  | .leaf a => .leaf a
  | .node cs => .nest (reifyList cs)

/-- `Package.reify` (with `flat=False`): the list comprehension over
`self.children`. -/
def reifyList {α : Type} : List (Pkg α) → List (NElem α)
  | [] => []
  | p :: ps => reifyPkg p :: reifyList ps
end

/-- The scan at the top of `get_attr`: the first positional argument that is a
`Package` (if any) has its children substituted for the argument tuple. -/
def firstNodeChildren {β : Type} : List (Pkg β) → Option (List (Pkg β))
  | [] => none
  | .node cs :: _ => some cs
  | .leaf _ :: rest => firstNodeChildren rest

mutual
/-- One loop iteration of `get_attr` in the `use_pkg_iter` branch: element
`e` is paired with `new_args = (args[i],)`.  A sub-`Package` recurses through
`wrap_attr(attr_name, element.children)(args[i], **kwargs)`, whose own scan
re-decides between zipping (when `args[i]` is a `Package`) and broadcasting;
its result constructor `Package(new_elems)` asserts a non-empty element list.
A leaf element invokes the attribute with the single positional `args[i]`. -/
def zipStep {α β γ κ : Type} (lc : α → List (Pkg β) → κ → Option γ) :
    Pkg α → Pkg β → κ → Option (Pkg γ)
  | .leaf x, a, kw => (lc x [a] kw).map .leaf
  | .node cs, .node acs, kw =>
      if cs.isEmpty then none else (goZip lc cs acs kw).map .node
  | .node cs, .leaf b, kw =>
      if cs.isEmpty then none else (goBroadcast lc cs [.leaf b] kw).map .node

/-- The `get_attr` loop in the `use_pkg_iter` branch: elements are enumerated
and `args[i]` is read for each; running past the end of `args` is the Python
IndexError (`none`). -/
def goZip {α β γ κ : Type} (lc : α → List (Pkg β) → κ → Option γ) :
    List (Pkg α) → List (Pkg β) → κ → Option (List (Pkg γ))
  | [], _, _ => some []
  | _ :: _, [], _ => none
  | e :: es, a :: as, kw => do
      pure ((← zipStep lc e a kw) :: (← goZip lc es as kw))

/-- One loop iteration of `get_attr` when no positional argument is a
`Package`: every element receives the unmodified argument tuple.  A
sub-`Package` recurses through `wrap_attr`, whose scan re-checks the arguments
for a `Package`. -/
def bStep {α β γ κ : Type} (lc : α → List (Pkg β) → κ → Option γ) :
    Pkg α → List (Pkg β) → κ → Option (Pkg γ)
  | .leaf x, args, kw => (lc x args kw).map .leaf
  | .node cs, args, kw =>
      if cs.isEmpty then none
      else match firstNodeChildren args with
        | some ach => (goZip lc cs ach kw).map .node
        | none => (goBroadcast lc cs args kw).map .node

/-- The `get_attr` loop in the broadcast branch. -/
def goBroadcast {α β γ κ : Type} (lc : α → List (Pkg β) → κ → Option γ) :
    List (Pkg α) → List (Pkg β) → κ → Option (List (Pkg γ))
  | [], _, _ => some []
  | e :: es, args, kw => do
      pure ((← bStep lc e args kw) :: (← goBroadcast lc es args kw))
end

/-- `self.__getattribute__(name)(*args, **kwargs)` for an invocable forwarded
name: `elements = self.children`, the scan for the first `Package` argument
picks zip or broadcast mode, and the final `Package(new_elems)` asserts a
non-empty element list. -/
def getAttrCall {α β γ κ : Type} (lc : α → List (Pkg β) → κ → Option γ)
    (elements : List (Pkg α)) (args : List (Pkg β)) (kw : κ) : Option (Pkg γ) :=
  if elements.isEmpty then none
  else match firstNodeChildren args with
    | some ach => (goZip lc elements ach kw).map .node
    | none => (goBroadcast lc elements args kw).map .node

/-- `int.__add__` as the leaf invocation of a forwarded `__add__` call: it
succeeds on a single raw int argument.  The claims never apply it to anything
else, and those unexercised branches are mapped to failure. -/
def addLC : Int → List (Pkg Int) → Unit → Option Int :=
  fun x as _ => match as with
  | [Pkg.leaf y] => some (x + y)
  | _ => none

/-- `Package.__add__`: `self.__getattribute__("__add__")(other)`, with
`cs = self.children`. -/
def addPkg (cs : List (Pkg Int)) (other : Pkg Int) : Option (Pkg Int) :=
  getAttrCall addLC cs [other] ()

mutual
/-- One `zip` iteration of `Package._apply_fn` (one argument tree): a
sub-`Package` element reads `arg.children` on its zipped partner — an
AttributeError (`none`) if that partner is a raw leaf — and recurses, the
recursive `Package(data)` asserting a non-empty result; a leaf element invokes
`function(e, p_arg)` directly. -/
def applyElem {α β γ : Type} (f : α → Pkg β → Option γ) :
    Pkg α → Pkg β → Option (Pkg γ)
  | .node cs, .node acs =>
      (applyList f cs acs).bind fun d =>
        if d.isEmpty then none else some (.node d)
  | .node _, .leaf _ => none
  | .leaf x, a => (f x a).map .leaf

/-- The `for params in zip(elements, *args)` loop of `_apply_fn`: standard
`zip` truncation — the loop stops at the shorter list. -/
def applyList {α β γ : Type} (f : α → Pkg β → Option γ) :
    List (Pkg α) → List (Pkg β) → Option (List (Pkg γ))
  | [], _ => some []
  | _ :: _, [] => some []
  | e :: es, a :: as => do
      pure ((← applyElem f e a) :: (← applyList f es as))
end

/-- `Package.apply_fn(function, q)`: reads `q.children` (an AttributeError if
`q` is not a `Package`) and runs `_apply_fn`, whose final `Package(data)`
asserts a non-empty result list. -/
def apply_fn {α β γ : Type} (f : α → Pkg β → Option γ)
    (cs : List (Pkg α)) (q : Pkg β) : Option (Pkg γ) :=
  match q with
  | .node acs =>
      (applyList f cs acs).bind fun d =>
        if d.isEmpty then none else some (.node d)
  | .leaf _ => none

/-- `operator.add` on int leaves, as supplied to `apply_fn`: succeeds on a raw
int partner; the claims never reach the other branches. -/
def addF : Int → Pkg Int → Option Int :=
  fun x a => match a with
  | .leaf y => some (x + y)
  | _ => none

mutual
/-- `flatten` on one element: a `list` flattens recursively (`items.extend`),
any other value passes through unchanged (`items.append`). -/
def flattenElem {α : Type} : NElem α → List α
  | .leaf a => [a]
  | .nest xs => flatten xs

/-- The free function `flatten`: depth-first, left-to-right. -/
def flatten {α : Type} : List (NElem α) → List α
  | [] => []
  | e :: rest => flattenElem e ++ flatten rest
end

mutual
/-- `nested_map` on one element of the comprehension: recurse into a `list`,
otherwise apply `fn` to the leaf. -/
def nmElem {α β : Type} (f : α → β) : NElem α → NElem β
  | .leaf a => .leaf (f a)
  | .nest xs => .nest (nested_map f xs)

/-- The free function `nested_map`. -/
def nested_map {α β : Type} (f : α → β) : List (NElem α) → List (NElem β)
  | [] => []
  | e :: rest => nmElem f e :: nested_map f rest
end

mutual
/-- Structural alignment of one child slot of two trees: leaves pair with
leaves, sub-`Package`s pair with sub-`Package`s of aligned children. -/
def alignedPkg {α β : Type} : Pkg α → Pkg β → Bool
  | .leaf _, .leaf _ => true
  | .node cs, .node ds => aligned cs ds
  | _, _ => false

/-- Structural alignment of two child lists: same length at this level and
aligned slot by slot. -/
def aligned {α β : Type} : List (Pkg α) → List (Pkg β) → Bool
  | [], [] => true
  | c :: cs, d :: ds => alignedPkg c d && aligned cs ds
  | _, _ => false
end

mutual
/-- Well-formedness of a child slot: every sub-`Package` anywhere inside has a
non-empty child list, the invariant every tree built by `Package.__init__`
satisfies. -/
def wfPkg {α : Type} : Pkg α → Bool
  | .leaf _ => true
  | .node cs => !cs.isEmpty && wfList cs

/-- Well-formedness of a child list (see `wfPkg`). -/
def wfList {α : Type} : List (Pkg α) → Bool
  | [] => true
  | p :: ps => wfPkg p && wfList ps
end

mutual
/-- `elemOK e`: the input element and every `list` nested inside it are
non-empty, so `Package(e)` can be constructed without an explicit type. -/
def elemOK {α : Type} : NElem α → Bool
  | .leaf _ => true
  | .nest xs => !xs.isEmpty && listOK xs

/-- `listOK x`: every `list` nested inside the elements of `x` is non-empty. -/
def listOK {α : Type} : List (NElem α) → Bool
  | [] => true
  | e :: rest => elemOK e && listOK rest
end

mutual
/-- Depth-wise truncation of one child slot to the part the zipped traversal
of `_apply_fn` can reach when paired with the given partner: a leaf is kept
whole, a sub-`Package` paired with a sub-`Package` keeps only the common
prefix of the children at every depth, and a kind clash keeps the slot
unchanged (the traversal stops there anyway). -/
def pruneElem {α β : Type} : Pkg α → Pkg β → Pkg α
  | .leaf x, _ => .leaf x
  | .node cs, .node ds => .node (pruneList cs ds)
  | .node cs, .leaf _ => .node cs

/-- Depth-wise truncation of a child list to the common prefix with the
partner list (the part the `zip` of `_apply_fn` reaches), recursively at
every depth. -/
def pruneList {α β : Type} : List (Pkg α) → List (Pkg β) → List (Pkg α)
  | [], _ => []
  | _ :: _, [] => []
  | c :: cs, d :: ds => pruneElem c d :: pruneList cs ds
end

mutual
/-- No truncation reached by the zipped traversal from this slot pair is
empty: whenever two sub-`Package`s meet, the `zip` of their children is
non-empty (otherwise the recursive `Package(data)` of `_apply_fn` fails its
assertion), recursively on the common prefix. -/
def netElem {α β : Type} : Pkg α → Pkg β → Bool
  | .node cs, .node ds => !(pruneList cs ds).isEmpty && netList cs ds
  | _, _ => true

/-- List form of `netElem`, over the common prefix of the two lists. -/
def netList {α β : Type} : List (Pkg α) → List (Pkg β) → Bool
  | [], _ => true
  | _ :: _, [] => true
  | c :: cs, d :: ds => netElem c d && netList cs ds
end

mutual
/-- Modelled from the spec (section 4.3 and claim C6), one position of the
zipped call: "every positional argument is instead drawn index-wise from that
argument tree's children"; the leaf at position `i` receives the i-th child as
its only positional argument together with the unchanged keyword arguments; a
sub-tree recurses one level deeper with the correspondingly aligned (sub-tree
or raw) argument. -/
def specZipStep {α β γ κ : Type} (lc : α → List (Pkg β) → κ → Option γ) :
    Pkg α → Pkg β → κ → Option (Pkg γ)
  | .leaf x, a, kw => (lc x [a] kw).map .leaf
  | .node cs, .node acs, kw => (specZip lc cs acs kw).map .node
  | .node cs, .leaf b, kw => (specBroadcast lc cs [.leaf b] kw).map .node

/-- Modelled from the spec: the zipped forwarded call over a child list; a
divergence of child counts surfaces as an index failure at that depth. -/
def specZip {α β γ κ : Type} (lc : α → List (Pkg β) → κ → Option γ) :
    List (Pkg α) → List (Pkg β) → κ → Option (List (Pkg γ))
  | [], _, _ => some []
  | _ :: _, [], _ => none
  | e :: es, a :: as, kw => do
      pure ((← specZipStep lc e a kw) :: (← specZip lc es as kw))

/-- Modelled from the spec: one position of the broadcast call — the
positional and keyword arguments reach every leaf unchanged. -/
def specBStep {α β γ κ : Type} (lc : α → List (Pkg β) → κ → Option γ) :
    Pkg α → List (Pkg β) → κ → Option (Pkg γ)
  | .leaf x, args, kw => (lc x args kw).map .leaf
  | .node cs, args, kw => (specBroadcast lc cs args kw).map .node

/-- Modelled from the spec: the broadcast forwarded call over a child list. -/
def specBroadcast {α β γ κ : Type} (lc : α → List (Pkg β) → κ → Option γ) :
    List (Pkg α) → List (Pkg β) → κ → Option (List (Pkg γ))
  | [], _, _ => some []
  | e :: es, args, kw => do
      pure ((← specBStep lc e args kw) :: (← specBroadcast lc es args kw))
end

/-- A Python runtime value at the granularity the `isinstance(-, list)` tests
observe: a `list`, a `tuple`, a `str`, or any other atomic object. -/
inductive PyVal where
  | pylist : List PyVal → PyVal
  | pytuple : List PyVal → PyVal
  | pystr : String → PyVal
  | pyatom : Int → PyVal

/-- The `isinstance(-, list)` test. -/
def isList : PyVal → Bool
  | .pylist _ => true
  | _ => false

/-- `flatten` re-embedded over `PyVal`: only a `pylist` is recursed into. -/
def flattenPy : List PyVal → List PyVal
  | [] => []
  | .pylist xs :: rest => flattenPy xs ++ flattenPy rest
  | e :: rest => e :: flattenPy rest

/-- `nested_map` re-embedded over `PyVal`: only a `pylist` is recursed into,
every other element has `fn` applied to it directly. -/
def nestedMapPy (f : PyVal → PyVal) : List PyVal → List PyVal
  | [] => []
  | .pylist xs :: rest => .pylist (nestedMapPy f xs) :: nestedMapPy f rest
  | e :: rest => f e :: nestedMapPy f rest

/-- `Package._build_children` re-embedded over `PyVal`: only a `pylist` is
wrapped into a child `Package` (whose constructor asserts non-emptiness),
every other element is kept as a leaf. -/
def buildChildrenPy : List PyVal → Option (List (Pkg PyVal))
  | [] => some []
  | .pylist xs :: rest =>
      if xs.isEmpty then none
      else do pure (Pkg.node (← buildChildrenPy xs) :: (← buildChildrenPy rest))
  | e :: rest => (buildChildrenPy rest).map (Pkg.leaf e :: ·)

/-- One item produced by fully consuming a `nested_builder` generator: either
a yielded suspended sub-generator `nested_builder(fresh_target, a)` carrying
its argument, or a yielded `(target, elements)` pair carrying the element
tuple. -/
inductive BEvent (α : Type) where
  | subgen : NElem α → BEvent α
  | leafPair : List (NElem α) → BEvent α

/-- Fully consuming `nested_builder(target, *args)` as written: the loop runs
over `zip(args)`, i.e. over the one-tuples `(args[0],), (args[1],), ...`, so
each iteration examines a whole argument sequence as a single element.  The
result is the list of yielded items together with the list of values appended
to `target` (each appended value is the fresh list `cb_element_list`, still
empty because the yielded sub-generator has not been consumed). -/
def nestedBuilderRun {α : Type} : List (NElem α) → List (BEvent α) × List (NElem α)
  | [] => ([], [])
  | a :: rest =>
      let r := nestedBuilderRun rest
      match a with
      | .nest xs => (.subgen (.nest xs) :: r.1, .nest [] :: r.2)
      | .leaf v => (.leafPair [.leaf v] :: r.1, r.2)

/-- Claim C7 (confirmed): constructing a tree from an empty sequence with no
explicit leaf type fails the constructor assertion (the ConstructionError of
the spec), while supplying an explicit leaf type makes the same construction
pass this check, producing a tree with no children. -/
theorem empty_construction (α : Type) :
    build ([] : List (NElem α)) = none ∧
      buildWithType ([] : List (NElem α)) = some [] :=
  ⟨rfl, rfl⟩

/-- Claim C1, counterexample: with `p` built from `[1, [2, 3]]` and `q` built
from `[1, [2, 3, 4]]`, both constructions succeed, but `p + q` does NOT raise:
the forwarded `__add__` walks the children of `p` and indexes the children of
`q`, so the extra fourth leaf of `q` is simply never read and the call returns
the tree reifying to `[2, [4, 6]]`.  This refutes the claim that the
evaluation fails at the second branch. -/
theorem add_mismatch_p_plus_q_returns :
    build [NElem.leaf (1 : Int), NElem.nest [NElem.leaf 2, NElem.leaf 3]] =
      some [Pkg.leaf 1, Pkg.node [Pkg.leaf 2, Pkg.leaf 3]] ∧
    build [NElem.leaf (1 : Int), NElem.nest [NElem.leaf 2, NElem.leaf 3, NElem.leaf 4]] =
      some [Pkg.leaf 1, Pkg.node [Pkg.leaf 2, Pkg.leaf 3, Pkg.leaf 4]] ∧
    addPkg [Pkg.leaf 1, Pkg.node [Pkg.leaf 2, Pkg.leaf 3]]
        (Pkg.node [Pkg.leaf 1, Pkg.node [Pkg.leaf 2, Pkg.leaf 3, Pkg.leaf 4]]) =
      some (Pkg.node [Pkg.leaf 2, Pkg.node [Pkg.leaf 4, Pkg.leaf 6]]) ∧
    addPkg [Pkg.leaf 1, Pkg.node [Pkg.leaf 2, Pkg.leaf 3]]
        (Pkg.node [Pkg.leaf 1, Pkg.node [Pkg.leaf 2, Pkg.leaf 3, Pkg.leaf 4]]) ≠
      none :=
  ⟨rfl, rfl, rfl, fun h => Option.noConfusion h⟩

/-- Claim C1 as amended (proved): both constructions succeed; `p + q` (smaller
tree as receiver) succeeds and returns the tree reifying to `[2, [4, 6]]`;
the out-of-range index failure arises in the opposite orientation `q + p`,
where the receiver has more children than the argument tree, and it arises at
the second branch: the first position still succeeds (`1 + 1`), while the
second-branch sub-call — zipping `[2, 3, 4]` against `[2, 3]` — is the failing
one. -/
theorem add_mismatch_direction :
    build [NElem.leaf (1 : Int), NElem.nest [NElem.leaf 2, NElem.leaf 3]] =
      some [Pkg.leaf 1, Pkg.node [Pkg.leaf 2, Pkg.leaf 3]] ∧
    build [NElem.leaf (1 : Int), NElem.nest [NElem.leaf 2, NElem.leaf 3, NElem.leaf 4]] =
      some [Pkg.leaf 1, Pkg.node [Pkg.leaf 2, Pkg.leaf 3, Pkg.leaf 4]] ∧
    addPkg [Pkg.leaf 1, Pkg.node [Pkg.leaf 2, Pkg.leaf 3]]
        (Pkg.node [Pkg.leaf 1, Pkg.node [Pkg.leaf 2, Pkg.leaf 3, Pkg.leaf 4]]) =
      some (Pkg.node [Pkg.leaf 2, Pkg.node [Pkg.leaf 4, Pkg.leaf 6]]) ∧
    addPkg [Pkg.leaf 1, Pkg.node [Pkg.leaf 2, Pkg.leaf 3, Pkg.leaf 4]]
        (Pkg.node [Pkg.leaf 1, Pkg.node [Pkg.leaf 2, Pkg.leaf 3]]) = none ∧
    zipStep addLC (Pkg.leaf (1 : Int)) (Pkg.leaf 1) () = some (Pkg.leaf 2) ∧
    zipStep addLC (Pkg.node [Pkg.leaf (2 : Int), Pkg.leaf 3, Pkg.leaf 4])
        (Pkg.node [Pkg.leaf 2, Pkg.leaf 3]) () = none :=
  ⟨rfl, rfl, rfl, rfl, rfl, rfl⟩

/-- Claim C2, counterexample: `p` built from `[1, 2, 3]` and `q` built from
`[1, 2]` are structurally misaligned (child counts 3 versus 2 at the top
level), yet `p.apply_fn(add, q)` raises nothing: the `zip` in `_apply_fn`
truncates to the common length and a result tree (reifying to `[2, 4]`) is
returned.  This refutes the claim that every misaligned argument tree raises
and that no result tree is returned. -/
theorem apply_fn_misaligned_returns :
    build [NElem.leaf (1 : Int), NElem.leaf 2, NElem.leaf 3] =
      some [Pkg.leaf 1, Pkg.leaf 2, Pkg.leaf 3] ∧
    build [NElem.leaf (1 : Int), NElem.leaf 2] = some [Pkg.leaf 1, Pkg.leaf 2] ∧
    apply_fn addF [Pkg.leaf 1, Pkg.leaf 2, Pkg.leaf 3]
        (Pkg.node [Pkg.leaf 1, Pkg.leaf 2]) =
      some (Pkg.node [Pkg.leaf 2, Pkg.leaf 4]) ∧
    apply_fn addF [Pkg.leaf 1, Pkg.leaf 2, Pkg.leaf 3]
        (Pkg.node [Pkg.leaf 1, Pkg.leaf 2]) ≠ none :=
  ⟨rfl, rfl, rfl, fun h => Option.noConfusion h⟩

/-- Claim C9 (code bug, evaluation at the failing input): fully consuming
`nested_builder(target, [1, 2])` does not walk the elements `1` and `2` in
lockstep.  Because the loop runs over `zip(args)` — the one-tuple holding the
whole list — it performs a single iteration that yields one suspended
sub-generator over the same whole list and appends one still-empty fresh list
to `target`; no `(leaf_target_container, leaf_values)` pair is ever yielded. -/
theorem nested_builder_whole_list :
    nestedBuilderRun [NElem.nest [NElem.leaf (1 : Int), NElem.leaf 2]] =
      ([BEvent.subgen (NElem.nest [NElem.leaf 1, NElem.leaf 2])],
        [NElem.nest []]) :=
  rfl

/-- Auxiliary for claim C8, by structural recursion over the nested list. -/
theorem flatten_nested_map_aux {α β : Type} (f : α → β) (x : List (NElem α)) :
    flatten (nested_map f x) = (flatten x).map f := by
  match x with
  | [] => rfl
  | .leaf a :: rest =>
      simp [nested_map, nmElem, flatten, flattenElem, flatten_nested_map_aux f rest]
  | .nest xs :: rest =>
      simp [nested_map, nmElem, flatten, flattenElem, flatten_nested_map_aux f xs,
        flatten_nested_map_aux f rest]

/-- Claim C8 (confirmed): for every plain nested list `x` and unary `f`,
flattening the structure-preserving map equals mapping `f` over the
depth-first, left-to-right flattening. -/
theorem flatten_nested_map_commute {α β : Type} (f : α → β) (x : List (NElem α)) :
    flatten (nested_map f x) = (flatten x).map f :=
  flatten_nested_map_aux f x

mutual
/-- Auxiliary for claim C3: an element whose nested lists are all non-empty
builds successfully and reifies back to itself. -/
theorem buildElem_reify {α : Type} (e : NElem α) (h : elemOK e = true) :
    ∃ p, buildElem e = some p ∧ reifyPkg p = e := by
  match e with
  | .leaf a => exact ⟨.leaf a, rfl, rfl⟩
  | .nest xs =>
      simp only [elemOK, Bool.and_eq_true, Bool.not_eq_eq_eq_not, Bool.not_true] at h
      obtain ⟨cs, hcs, hr⟩ := buildList_reify xs h.2
      refine ⟨.node cs, ?_, ?_⟩
      · simp [buildElem, h.1, hcs]
      · simp [reifyPkg, hr]

/-- Auxiliary for claim C3, list form. -/
theorem buildList_reify {α : Type} (x : List (NElem α)) (h : listOK x = true) :
    ∃ cs, buildList x = some cs ∧ reifyList cs = x := by
  match x with
  | [] => exact ⟨[], rfl, rfl⟩
  | e :: rest =>
      simp only [listOK, Bool.and_eq_true] at h
      obtain ⟨p, hp, hrp⟩ := buildElem_reify e h.1
      obtain ⟨cs, hcs, hrs⟩ := buildList_reify rest h.2
      exact ⟨p :: cs, by simp [buildList, hp, hcs], by simp [reifyList, hrp, hrs]⟩
end

/-- Claim C3 (confirmed): for a non-empty plain nested list `x` all of whose
nested lists are non-empty, construction with no explicit leaf type succeeds
and reification returns `x` unchanged. -/
theorem reify_build_roundtrip {α : Type} (x : List (NElem α))
    (h1 : x ≠ []) (h2 : listOK x = true) :
    ∃ cs, build x = some cs ∧ reifyList cs = x := by
  obtain ⟨cs, hcs, hr⟩ := buildList_reify x h2
  match x, h1 with
  | e :: rest, _ => exact ⟨cs, by simpa [build] using hcs, hr⟩

/-- Witness for claim C3 at `x = [1, [2]]`. -/
theorem reify_build_roundtrip_witness :
    ∃ cs, build [NElem.leaf (1 : Int), NElem.nest [NElem.leaf 2]] = some cs ∧
      reifyList cs = [NElem.leaf (1 : Int), NElem.nest [NElem.leaf 2]] :=
  reify_build_roundtrip _ (by simp) rfl

mutual
/-- Auxiliary for claim C2: one `_apply_fn` step depends only on the
depth-wise common prefix of the two slots — pruning both sides to it changes
nothing.  Fully general in the trees and in the supplied function. -/
theorem applyElem_prune {α β γ : Type} (f : α → Pkg β → Option γ)
    (e : Pkg α) (a : Pkg β) :
    applyElem f e a = applyElem f (pruneElem e a) (pruneElem a e) := by
  match e, a with
  | .leaf x, .leaf y => rfl
  | .leaf x, .node ds => rfl
  | .node cs, .leaf y => rfl
  | .node cs, .node ds =>
      simp [pruneElem, applyElem, applyList_prune f cs ds]

/-- Auxiliary for claim C2, list form: the `zip` loop of `_apply_fn` reads
only the common prefix of the two child lists, recursively at every depth. -/
theorem applyList_prune {α β γ : Type} (f : α → Pkg β → Option γ)
    (es : List (Pkg α)) (as : List (Pkg β)) :
    applyList f es as = applyList f (pruneList es as) (pruneList as es) := by
  match es, as with
  | [], as => cases as <;> rfl
  | e :: es0, [] => rfl
  | e :: es0, a :: as0 =>
      simp [pruneList, applyList, applyElem_prune f e a, applyList_prune f es0 as0]
end

/-- Two aligned lists are empty together. -/
theorem aligned_ne_nil {γ α : Type} {rs : List (Pkg γ)} {ps : List (Pkg α)}
    (h : aligned rs ps = true) (hp : ps.isEmpty = false) : rs.isEmpty = false := by
  match rs, ps with
  | [], [] => simp at hp
  | [], p :: ps0 => simp [aligned] at h
  | r :: rs0, _ => rfl

mutual
/-- Auxiliary for claim C2: when the function succeeds on every leaf pair,
the kinds agree on the depth-wise common prefix of the two slots, and no
reached truncation is empty, one `_apply_fn` step succeeds and its result has
the shape of the pruned receiver slot. -/
theorem applyElem_success {α β γ : Type} (f : α → Pkg β → Option γ)
    (hf : ∀ x b, (f x (Pkg.leaf b)).isSome = true) (e : Pkg α) (a : Pkg β)
    (hk : alignedPkg (pruneElem e a) (pruneElem a e) = true)
    (hn : netElem e a = true) :
    ∃ r, applyElem f e a = some r ∧ alignedPkg r (pruneElem e a) = true := by
  match e, a with
  | .leaf x, .leaf y =>
      have h := hf x y
      cases hv : f x (Pkg.leaf y) with
      | none => rw [hv] at h; simp at h
      | some v => exact ⟨.leaf v, by simp [applyElem, hv], rfl⟩
  | .leaf x, .node ds => simp [pruneElem, alignedPkg] at hk
  | .node cs, .leaf y => simp [pruneElem, alignedPkg] at hk
  | .node cs, .node ds =>
      have hk' : aligned (pruneList cs ds) (pruneList ds cs) = true := by
        simpa [pruneElem, alignedPkg] using hk
      have hn' : (pruneList cs ds).isEmpty = false ∧ netList cs ds = true := by
        simpa [netElem, Bool.and_eq_true, Bool.not_eq_eq_eq_not, Bool.not_true] using hn
      obtain ⟨rs, hrs, ha⟩ := applyList_success f hf cs ds hk' hn'.2
      have hrsne : rs.isEmpty = false := aligned_ne_nil ha hn'.1
      refine ⟨.node rs, ?_, ?_⟩
      · simp [applyElem, hrs, hrsne]
      · simpa [pruneElem, alignedPkg] using ha

/-- Auxiliary for claim C2, list form. -/
theorem applyList_success {α β γ : Type} (f : α → Pkg β → Option γ)
    (hf : ∀ x b, (f x (Pkg.leaf b)).isSome = true)
    (es : List (Pkg α)) (as : List (Pkg β))
    (hk : aligned (pruneList es as) (pruneList as es) = true)
    (hn : netList es as = true) :
    ∃ ds, applyList f es as = some ds ∧ aligned ds (pruneList es as) = true := by
  match es, as with
  | [], as => exact ⟨[], rfl, by cases as <;> rfl⟩
  | e :: es0, [] => exact ⟨[], rfl, rfl⟩
  | e :: es0, a :: as0 =>
      have hk' : alignedPkg (pruneElem e a) (pruneElem a e) = true ∧
          aligned (pruneList es0 as0) (pruneList as0 es0) = true := by
        simpa [pruneList, aligned, Bool.and_eq_true] using hk
      have hn' : netElem e a = true ∧ netList es0 as0 = true := by
        simpa [netList, Bool.and_eq_true] using hn
      obtain ⟨r, hr, har⟩ := applyElem_success f hf e a hk'.1 hn'.1
      obtain ⟨ds, hds, hads⟩ := applyList_success f hf es0 as0 hk'.2 hn'.2
      exact ⟨r :: ds, by simp [applyList, hr, hds],
        by simp [pruneList, aligned, har, hads]⟩
end

/-- Claim C2 as amended (proved): a call `p.apply_fn(function, q)` whose
trees diverge in child counts does not raise on that account.  For every
function and every pair of trees, `_apply_fn` reads only the depth-wise
common prefix of the two trees — pruning both to it leaves the call unchanged
(third conjunct; proved for all trees and functions, with no hypotheses, in
`applyList_prune`) — and whenever the function succeeds on every leaf pair,
the kinds agree on that common prefix, and no reached truncation (the top
level included) is empty, the call returns a result tree of exactly the
common-prefix shape (first two conjuncts).  Contrapositively, an error can
only arise from a leaf/sub-tree kind clash on the common prefix, from an
empty truncation (which fails the result-constructor assertion), or from a
failing leaf invocation — never from count divergence itself. -/
theorem apply_fn_truncating {α β γ : Type} (f : α → Pkg β → Option γ)
    (hf : ∀ x b, (f x (Pkg.leaf b)).isSome = true)
    (es : List (Pkg α)) (as : List (Pkg β))
    (hk : aligned (pruneList es as) (pruneList as es) = true)
    (hn : netList es as = true) (htop : (pruneList es as).isEmpty = false) :
    ∃ ds, apply_fn f es (Pkg.node as) = some (Pkg.node ds) ∧
      aligned ds (pruneList es as) = true ∧
      apply_fn f es (Pkg.node as) =
        apply_fn f (pruneList es as) (Pkg.node (pruneList as es)) := by
  obtain ⟨ds, hds, ha⟩ := applyList_success f hf es as hk hn
  have hne : ds.isEmpty = false := aligned_ne_nil ha htop
  have hpr := applyList_prune f es as
  refine ⟨ds, by simp [apply_fn, hds, hne], ha, ?_⟩
  simp only [apply_fn]
  rw [← hpr]

/-- Witness for claim C2 at trees whose child counts diverge at the top level
(2 versus 3) and inside the second branch (2 versus 3): the call succeeds and
equals the call on the depth-wise truncated trees. -/
theorem apply_fn_truncating_witness :
    ∃ ds, apply_fn addF [Pkg.leaf 1, Pkg.node [Pkg.leaf 2, Pkg.leaf 3]]
        (Pkg.node [Pkg.leaf 10, Pkg.node [Pkg.leaf 20, Pkg.leaf 30, Pkg.leaf 40],
          Pkg.leaf 99]) = some (Pkg.node ds) ∧
      aligned ds (pruneList [Pkg.leaf (1 : Int), Pkg.node [Pkg.leaf 2, Pkg.leaf 3]]
        [Pkg.leaf (10 : Int), Pkg.node [Pkg.leaf 20, Pkg.leaf 30, Pkg.leaf 40],
          Pkg.leaf 99]) = true ∧
      apply_fn addF [Pkg.leaf 1, Pkg.node [Pkg.leaf 2, Pkg.leaf 3]]
        (Pkg.node [Pkg.leaf 10, Pkg.node [Pkg.leaf 20, Pkg.leaf 30, Pkg.leaf 40],
          Pkg.leaf 99]) =
        apply_fn addF
          (pruneList [Pkg.leaf (1 : Int), Pkg.node [Pkg.leaf 2, Pkg.leaf 3]]
            [Pkg.leaf (10 : Int), Pkg.node [Pkg.leaf 20, Pkg.leaf 30, Pkg.leaf 40],
              Pkg.leaf 99])
          (Pkg.node (pruneList
            [Pkg.leaf (10 : Int), Pkg.node [Pkg.leaf 20, Pkg.leaf 30, Pkg.leaf 40],
              Pkg.leaf 99]
            [Pkg.leaf (1 : Int), Pkg.node [Pkg.leaf 2, Pkg.leaf 3]])) :=
  apply_fn_truncating addF (fun _ _ => rfl) _ _ rfl rfl rfl

/-- Claim C10 (confirmed): only `list` instances are treated as nested
sub-sequences.  An element `e` that is not a `list` — a tuple, a string, or
any other atom — passes through `flatten` unchanged as one item, is handed to
the mapped function atomically by `nested_map`, and is kept as a raw leaf by
`_build_children`; a `list` element is recursed into by `flatten` and
`nested_map` and wrapped into a child tree node by `_build_children`. -/
theorem isinstance_list_discrimination (f : PyVal → PyVal) (e : PyVal)
    (rest xs : List PyVal) (he : isList e = false) (hxs : xs ≠ []) :
    flattenPy (e :: rest) = e :: flattenPy rest ∧
    nestedMapPy f (e :: rest) = f e :: nestedMapPy f rest ∧
    buildChildrenPy (e :: rest) = (buildChildrenPy rest).map (Pkg.leaf e :: ·) ∧
    flattenPy (PyVal.pylist xs :: rest) = flattenPy xs ++ flattenPy rest ∧
    nestedMapPy f (PyVal.pylist xs :: rest) =
      PyVal.pylist (nestedMapPy f xs) :: nestedMapPy f rest ∧
    buildChildrenPy (PyVal.pylist xs :: rest) =
      (buildChildrenPy xs).bind fun cxs =>
        (buildChildrenPy rest).map fun crest => Pkg.node cxs :: crest := by
  refine ⟨?_, ?_, ?_, by simp [flattenPy], by simp [nestedMapPy], ?_⟩
  · match e, he with
    | .pytuple ts, _ => simp [flattenPy]
    | .pystr s, _ => simp [flattenPy]
    | .pyatom n, _ => simp [flattenPy]
  · match e, he with
    | .pytuple ts, _ => simp [nestedMapPy]
    | .pystr s, _ => simp [nestedMapPy]
    | .pyatom n, _ => simp [nestedMapPy]
  · match e, he with
    | .pytuple ts, _ => simp [buildChildrenPy]
    | .pystr s, _ => simp [buildChildrenPy]
    | .pyatom n, _ => simp [buildChildrenPy]
  · match xs, hxs with
    | x :: xs0, _ =>
        simp only [buildChildrenPy, List.isEmpty_cons, Bool.false_eq_true,
          if_false, Option.map_eq_bind]
        rfl

/-- Witness for claim C10 at a tuple element and a singleton list element. -/
theorem isinstance_list_discrimination_witness :
    flattenPy (PyVal.pytuple [PyVal.pyatom 1] :: [PyVal.pyatom 3]) =
      PyVal.pytuple [PyVal.pyatom 1] :: flattenPy [PyVal.pyatom 3] ∧
    nestedMapPy id (PyVal.pytuple [PyVal.pyatom 1] :: [PyVal.pyatom 3]) =
      id (PyVal.pytuple [PyVal.pyatom 1]) :: nestedMapPy id [PyVal.pyatom 3] ∧
    buildChildrenPy (PyVal.pytuple [PyVal.pyatom 1] :: [PyVal.pyatom 3]) =
      (buildChildrenPy [PyVal.pyatom 3]).map
        (Pkg.leaf (PyVal.pytuple [PyVal.pyatom 1]) :: ·) ∧
    flattenPy (PyVal.pylist [PyVal.pyatom 2] :: [PyVal.pyatom 3]) =
      flattenPy [PyVal.pyatom 2] ++ flattenPy [PyVal.pyatom 3] ∧
    nestedMapPy id (PyVal.pylist [PyVal.pyatom 2] :: [PyVal.pyatom 3]) =
      PyVal.pylist (nestedMapPy id [PyVal.pyatom 2]) :: nestedMapPy id [PyVal.pyatom 3] ∧
    buildChildrenPy (PyVal.pylist [PyVal.pyatom 2] :: [PyVal.pyatom 3]) =
      (buildChildrenPy [PyVal.pyatom 2]).bind fun cxs =>
        (buildChildrenPy [PyVal.pyatom 3]).map fun crest => Pkg.node cxs :: crest :=
  isinstance_list_discrimination id (PyVal.pytuple [PyVal.pyatom 1])
    [PyVal.pyatom 3] [PyVal.pyatom 2] rfl (by simp)

/-- A non-empty list has `isEmpty = false`. -/
theorem isEmpty_false_of_ne_nil {γ : Type} {d : List γ} (h : d ≠ []) :
    d.isEmpty = false := by
  match d, h with
  | _ :: _, _ => rfl

/-- Inversion of `_build_children` on a cons cell. -/
theorem buildList_cons_inv {α : Type} {e : NElem α} {rest : List (NElem α)}
    {cs : List (Pkg α)} (h : buildList (e :: rest) = some cs) :
    ∃ p cs0, buildElem e = some p ∧ buildList rest = some cs0 ∧ cs = p :: cs0 := by
  cases h1 : buildElem e with
  | none => simp [buildList, h1] at h
  | some p =>
    cases h2 : buildList rest with
    | none => simp [buildList, h1, h2] at h
    | some cs0 =>
      simp [buildList, h1, h2] at h
      exact ⟨p, cs0, rfl, rfl, h.symm⟩

mutual
/-- Auxiliary for claim C4: broadcasting `__add__` with the raw scalar `k`
over one built child reifies to the mapped element. -/
theorem bStep_add_scalar (k : Int) (e : NElem Int) (p : Pkg Int)
    (h : buildElem e = some p) :
    ∃ r, bStep addLC p [Pkg.leaf k] () = some r ∧
      reifyPkg r = nmElem (fun v => v + k) e := by
  match e with
  | .leaf a =>
      have hp : Pkg.leaf a = p := by simpa [buildElem] using h
      subst hp
      exact ⟨.leaf (a + k), rfl, rfl⟩
  | .nest xs =>
      match hxs : xs with
      | [] => simp [buildElem] at h
      | x :: xs0 =>
          have h' : (buildList (x :: xs0)).map Pkg.node = some p := by
            simpa [buildElem] using h
          rw [Option.map_eq_some'] at h'
          obtain ⟨cs, hcs, hp⟩ := h'
          subst hp
          obtain ⟨q, cs0, hq, hcs0, hshape⟩ := buildList_cons_inv hcs
          obtain ⟨rs, hrs, hrr⟩ := goBroadcast_add_scalar k (x :: xs0) cs hcs
          refine ⟨.node rs, ?_, ?_⟩
          · have hne : cs.isEmpty = false := by simp [hshape]
            simp [bStep, firstNodeChildren, hne, hrs]
          · simp [reifyPkg, nmElem, hrr]

/-- Auxiliary for claim C4, list form. -/
theorem goBroadcast_add_scalar (k : Int) (x : List (NElem Int)) (cs : List (Pkg Int))
    (h : buildList x = some cs) :
    ∃ rs, goBroadcast addLC cs [Pkg.leaf k] () = some rs ∧
      reifyList rs = nested_map (fun v => v + k) x := by
  match x with
  | [] =>
      have : ([] : List (Pkg Int)) = cs := by simpa [buildList] using h
      subst this
      exact ⟨[], rfl, rfl⟩
  | e :: rest =>
      obtain ⟨p, cs0, h1, h2, hshape⟩ := buildList_cons_inv h
      subst hshape
      obtain ⟨r, hr, hrr⟩ := bStep_add_scalar k e p h1
      obtain ⟨rs, hrs, hrsr⟩ := goBroadcast_add_scalar k rest cs0 h2
      exact ⟨r :: rs, by simp [goBroadcast, hr, hrs],
        by simp [reifyList, nested_map, hrr, hrsr]⟩
end

/-- Claim C4 (confirmed): for a tree built from the plain nested list `x` of
int leaves and a raw scalar `k`, the forwarded `p + k` succeeds — the scalar
is broadcast unchanged to every leaf — and the result reifies to
`nested_map (fun v => v + k) x`, a nested list of the shape of `x`. -/
theorem scalar_broadcast_add (x : List (NElem Int)) (k : Int) (cs : List (Pkg Int))
    (h : build x = some cs) :
    ∃ rs, addPkg cs (Pkg.leaf k) = some (Pkg.node rs) ∧
      reifyList rs = nested_map (fun v => v + k) x := by
  match x with
  | [] => simp [build] at h
  | e :: rest =>
      have hb : buildList (e :: rest) = some cs := by simpa [build] using h
      obtain ⟨p, cs0, h1, h2, hshape⟩ := buildList_cons_inv hb
      obtain ⟨rs, hrs, hrr⟩ := goBroadcast_add_scalar k (e :: rest) cs hb
      refine ⟨rs, ?_, hrr⟩
      have hne : cs.isEmpty = false := by simp [hshape]
      simp [addPkg, getAttrCall, firstNodeChildren, hne, hrs]

/-- Witness for claim C4 at `x = [1, [2, 3]]`, `k = 10`. -/
theorem scalar_broadcast_add_witness :
    ∃ rs, addPkg [Pkg.leaf 1, Pkg.node [Pkg.leaf 2, Pkg.leaf 3]]
        (Pkg.leaf (10 : Int)) = some (Pkg.node rs) ∧
      reifyList rs = nested_map (fun v => v + 10)
        [NElem.leaf (1 : Int), NElem.nest [NElem.leaf 2, NElem.leaf 3]] :=
  scalar_broadcast_add _ 10 _ rfl

/-- A successful zip pass over a non-empty element list yields a non-empty
result list. -/
theorem goZip_cons_ne_nil {α β γ κ : Type} (lc : α → List (Pkg β) → κ → Option γ)
    (e : Pkg α) (es : List (Pkg α)) (as : List (Pkg β)) (kw : κ)
    (d : List (Pkg γ)) (h : goZip lc (e :: es) as kw = some d) : d ≠ [] := by
  match as with
  | [] => simp [goZip] at h
  | a :: as0 =>
      cases h1 : zipStep lc e a kw with
      | none => simp [goZip, h1] at h
      | some hd =>
          cases h2 : goZip lc es as0 kw with
          | none => simp [goZip, h1, h2] at h
          | some tl =>
              simp [goZip, h1, h2] at h
              simp [← h]

mutual
/-- Auxiliary for claim C5: on one aligned pair of child slots, the explicit
`_apply_fn` step with `operator.add` and the forwarded `__add__` step agree. -/
theorem applyElem_eq_zipStep (e a : Pkg Int) (h : alignedPkg e a = true) :
    applyElem addF e a = zipStep addLC e a () := by
  match e, a with
  | .leaf x, .leaf y => rfl
  | .leaf x, .node acs => simp [alignedPkg] at h
  | .node cs, .leaf y => simp [alignedPkg] at h
  | .node cs, .node acs =>
      have h' : aligned cs acs = true := by simpa [alignedPkg] using h
      have hl := applyList_eq_goZip cs acs h'
      match cs, acs, h' with
      | [], [], _ => rfl
      | [], b :: bs, h' => simp [aligned] at h'
      | c :: cs0, [], h' => simp [aligned] at h'
      | c :: cs0, b :: bs, h' =>
          simp only [applyElem, zipStep, hl, List.isEmpty_cons, Bool.false_eq_true,
            if_false]
          cases hz : goZip addLC (c :: cs0) (b :: bs) () with
          | none => simp [hz]
          | some d =>
              have hne : d.isEmpty = false :=
                isEmpty_false_of_ne_nil (goZip_cons_ne_nil addLC c cs0 (b :: bs) () d hz)
              simp [hz, hne]

/-- Auxiliary for claim C5, list form. -/
theorem applyList_eq_goZip (es as : List (Pkg Int)) (h : aligned es as = true) :
    applyList addF es as = goZip addLC es as () := by
  match es, as with
  | [], [] => rfl
  | [], a :: as0 => simp [aligned] at h
  | e :: es0, [] => simp [aligned] at h
  | e :: es0, a :: as0 =>
      have h' : alignedPkg e a = true ∧ aligned es0 as0 = true := by
        simpa [aligned, Bool.and_eq_true] using h
      simp [applyList, goZip, applyElem_eq_zipStep e a h'.1,
        applyList_eq_goZip es0 as0 h'.2]
end

/-- Claim C5 (confirmed): for structurally aligned trees of int leaves, the
explicit zip-apply `p.apply_fn(add, q)` and the forwarded operator `p + q`
return the same result — equal even as optional values, hence with equal
reifications. -/
theorem apply_fn_eq_forwarded_add (p q : List (Pkg Int)) (h : aligned p q = true) :
    apply_fn addF p (Pkg.node q) = addPkg p (Pkg.node q) := by
  have hl := applyList_eq_goZip p q h
  match p, q with
  | [], [] => rfl
  | [], b :: bs => simp [aligned] at h
  | c :: cs0, [] => simp [aligned] at h
  | c :: cs0, b :: bs =>
      simp only [apply_fn, addPkg, getAttrCall, firstNodeChildren, hl,
        List.isEmpty_cons, Bool.false_eq_true, if_false]
      cases hz : goZip addLC (c :: cs0) (b :: bs) () with
      | none => simp [hz]
      | some d =>
          have hne : d.isEmpty = false :=
            isEmpty_false_of_ne_nil (goZip_cons_ne_nil addLC c cs0 (b :: bs) () d hz)
          simp [hz, hne]

/-- Witness for claim C5 at `p` from `[1, [2]]`, `q` from `[10, [20]]`. -/
theorem apply_fn_eq_forwarded_add_witness :
    apply_fn addF [Pkg.leaf 1, Pkg.node [Pkg.leaf 2]]
        (Pkg.node [Pkg.leaf 10, Pkg.node [Pkg.leaf 20]]) =
      addPkg [Pkg.leaf 1, Pkg.node [Pkg.leaf 2]]
        (Pkg.node [Pkg.leaf 10, Pkg.node [Pkg.leaf 20]]) :=
  apply_fn_eq_forwarded_add _ _ rfl

mutual
/-- Auxiliary for claim C6: on well-formed receivers, one zipped step of the
code equals the spec-modelled step. -/
theorem zipStep_eq_spec {α β γ κ : Type} (lc : α → List (Pkg β) → κ → Option γ)
    (e : Pkg α) (a : Pkg β) (kw : κ) (h : wfPkg e = true) :
    zipStep lc e a kw = specZipStep lc e a kw := by
  match e, a with
  | .leaf x, a =>
      match a with
      | .leaf b => rfl
      | .node acs => rfl
  | .node cs, .node acs =>
      have h' : cs.isEmpty = false ∧ wfList cs = true := by
        simpa [wfPkg, Bool.and_eq_true, Bool.not_eq_eq_eq_not, Bool.not_true] using h
      simp [zipStep, specZipStep, h'.1, goZip_eq_spec lc cs acs kw h'.2]
  | .node cs, .leaf b =>
      have h' : cs.isEmpty = false ∧ wfList cs = true := by
        simpa [wfPkg, Bool.and_eq_true, Bool.not_eq_eq_eq_not, Bool.not_true] using h
      simp [zipStep, specZipStep, h'.1,
        goBroadcast_eq_spec lc cs [Pkg.leaf b] kw h'.2 rfl]

/-- Auxiliary for claim C6, zipped list form. -/
theorem goZip_eq_spec {α β γ κ : Type} (lc : α → List (Pkg β) → κ → Option γ)
    (es : List (Pkg α)) (as : List (Pkg β)) (kw : κ) (h : wfList es = true) :
    goZip lc es as kw = specZip lc es as kw := by
  match es, as with
  | [], as => rfl
  | e :: es0, [] => rfl
  | e :: es0, a :: as0 =>
      have h' : wfPkg e = true ∧ wfList es0 = true := by
        simpa [wfList, Bool.and_eq_true] using h
      simp [goZip, specZip, zipStep_eq_spec lc e a kw h'.1,
        goZip_eq_spec lc es0 as0 kw h'.2]

/-- Auxiliary for claim C6: on well-formed receivers, one broadcast step of
the code equals the spec-modelled step when no argument is a tree. -/
theorem bStep_eq_spec {α β γ κ : Type} (lc : α → List (Pkg β) → κ → Option γ)
    (e : Pkg α) (args : List (Pkg β)) (kw : κ) (h : wfPkg e = true)
    (hn : firstNodeChildren args = none) :
    bStep lc e args kw = specBStep lc e args kw := by
  match e with
  | .leaf x => rfl
  | .node cs =>
      have h' : cs.isEmpty = false ∧ wfList cs = true := by
        simpa [wfPkg, Bool.and_eq_true, Bool.not_eq_eq_eq_not, Bool.not_true] using h
      simp [bStep, specBStep, hn, h'.1,
        goBroadcast_eq_spec lc cs args kw h'.2 hn]

/-- Auxiliary for claim C6, broadcast list form. -/
theorem goBroadcast_eq_spec {α β γ κ : Type} (lc : α → List (Pkg β) → κ → Option γ)
    (es : List (Pkg α)) (args : List (Pkg β)) (kw : κ) (h : wfList es = true)
    (hn : firstNodeChildren args = none) :
    goBroadcast lc es args kw = specBroadcast lc es args kw := by
  match es with
  | [] => rfl
  | e :: es0 =>
      have h' : wfPkg e = true ∧ wfList es0 = true := by
        simpa [wfList, Bool.and_eq_true] using h
      simp [goBroadcast, specBroadcast, bStep_eq_spec lc e args kw h'.1 hn,
        goBroadcast_eq_spec lc es0 args kw h'.2 hn]
end

/-- Claim C6 (confirmed): a forwarded invocable call whose positional
arguments contain at least one tree node — the first such node having children
`ach` — behaves exactly as the spec-modelled zip: every positional argument is
replaced by the index-wise children of that first tree (the other positional
arguments are dropped, as the right-hand side depends only on `ach`), the leaf
at position `i` is invoked with the i-th child as its only positional argument,
and the keyword arguments `kw` reach every leaf unchanged.  The receiver is
required to be a well-formed non-empty tree, the invariant guaranteed by
construction. -/
theorem forwarded_call_first_tree {α β γ κ : Type}
    (lc : α → List (Pkg β) → κ → Option γ) (elements : List (Pkg α))
    (args : List (Pkg β)) (kw : κ) (ach : List (Pkg β))
    (hwf : wfList elements = true) (hne : elements ≠ [])
    (hfirst : firstNodeChildren args = some ach) :
    getAttrCall lc elements args kw = (specZip lc elements ach kw).map Pkg.node := by
  match elements, hne with
  | e :: es, _ =>
      simp [getAttrCall, hfirst, goZip_eq_spec lc (e :: es) ach kw hwf]

/-- Witness for claim C6: two positional arguments besides the tree, the tree
in the middle; the call equals the spec-modelled zip against the children of
that tree. -/
theorem forwarded_call_first_tree_witness :
    getAttrCall addLC [Pkg.leaf 1, Pkg.node [Pkg.leaf 2]]
        [Pkg.leaf (99 : Int), Pkg.node [Pkg.leaf 10, Pkg.node [Pkg.leaf 20]],
          Pkg.leaf 77] () =
      (specZip addLC [Pkg.leaf 1, Pkg.node [Pkg.leaf 2]]
        [Pkg.leaf 10, Pkg.node [Pkg.leaf 20]] ()).map Pkg.node :=
  forwarded_call_first_tree addLC _ _ () _ rfl (by simp) rfl

end Candle
